import Mathlib

/-!
Shallow embedding of the context-anchored block-preservation merge found in
the sync scripts of this repository: block extraction, context sampling,
anchor location, block reinsertion, merge orchestration, and the two
protected-block validators.  Documents are modelled as the string split on
line breaks; JS string primitives (includes, trim, substring, split, join)
are modelled at the character-list level so that every definition is
executable and kernel-reducible.
-/

namespace SyncMerge

/-- Does the character list start with the given needle?  Building block for
the substring test. -/
def charsStartWith : List Char → List Char → Bool
  | _, [] => true
  | [], _ :: _ => false
  | c :: cs, d :: ds => c == d && charsStartWith cs ds

/-- Does the character list contain the needle as a contiguous run?
Char-level model of JS String.prototype.includes. -/
def charsContain : List Char → List Char → Bool
  | [], needle => needle.isEmpty
  | c :: cs, needle => charsStartWith (c :: cs) needle || charsContain cs needle

/-- JS `s.includes(sub)`. -/
def jsIncludes (s sub : String) : Bool := charsContain s.data sub.data

/-- Whitespace characters stripped by trim (ASCII fragment, which is all the
merge code ever feeds it). -/
def isWs (c : Char) : Bool := c == ' ' || c == '\t' || c == '\r' || c == '\n'

/-- JS `s.trim()`. -/
def jsTrim (s : String) : String :=
  String.mk (((s.data.dropWhile isWs).reverse.dropWhile isWs).reverse)

/-- Split a character list on newline characters; always returns at least one
piece, exactly like JS `split` with a one-character separator. -/
def splitCharsOnNl : List Char → List (List Char)
  | [] => [[]]
  | c :: rest =>
    if c == '\n' then [] :: splitCharsOnNl rest
    else
      match splitCharsOnNl rest with
      | [] => [[c]]
      | h :: t => (c :: h) :: t

/-- JS `content.split('\n')`. -/
def splitOnNl (s : String) : List String := (splitCharsOnNl s.data).map String.mk

/-- JS `lines.join('\n')`. -/
def joinNl : List String → String
  | [] => ""
  | [s] => s
  | s :: t :: rest => s ++ "\n" ++ joinNl (t :: rest)

/-- The configured pair of marker string sets
(`config.protected_blocks.start_markers` / `end_markers`). -/
structure Markers where
  startMarkers : List String
  endMarkers : List String
  deriving DecidableEq, Repr

/-- `markers.some(marker => line.includes(marker))`. -/
def containsAny (line : String) (markers : List String) : Bool :=
  markers.any (fun mk => jsIncludes line mk)

/-- `isMarkerLine` from the sync script: the line contains any start or end
marker as a substring. -/
def isMarkerLine (m : Markers) (line : String) : Bool :=
  containsAny line (m.startMarkers ++ m.endMarkers)

/-- A protected block as produced by `extractProtectedBlocks`:
0-indexed first and last line, and the verbatim joined content. -/
structure Block where
  start : Nat
  stop : Nat
  content : String
  deriving DecidableEq, Repr

/-- The scan loop of `extractProtectedBlocks`: walks the lines with the
current index, the in-block flag, the accumulated current block and the
recorded block start. -/
def extractGo (sm em : List String) : List String → Nat → Bool → List String → Nat → List Block
  | [], _, _, _, _ => []
  | line :: rest, i, inBlock, cur, bs =>
    if !inBlock && containsAny line sm then
      extractGo sm em rest (i + 1) true [line] i
    else if inBlock then
      let cur2 := cur ++ [line]
      if containsAny line em then
        { start := bs, stop := i, content := joinNl cur2 } :: extractGo sm em rest (i + 1) false [] bs
      else
        extractGo sm em rest (i + 1) true cur2 bs
    else
      extractGo sm em rest (i + 1) false cur bs

/-- `extractProtectedBlocks(content)` from the sync script. -/
def extractProtectedBlocks (content : String) (m : Markers) : List Block :=
  extractGo m.startMarkers m.endMarkers (splitOnNl content) 0 false [] 0

/-- Body of the context-sampling loops: trim the raw line and keep it unless
it is empty or a marker line. -/
def keepContextLine (m : Markers) (acc : List String) (raw : String) : List String :=
  let line := jsTrim raw
  if line != "" && !isMarkerLine m line then acc ++ [line] else acc

/-- `getContextBefore(lines, position, count)`: walk the raw indices
`[max(0, position - count), position)` and keep eligible trimmed lines. -/
def getContextBefore (m : Markers) (lines : List String) (position count : Nat) : List String :=
  let start := position - count
  (List.range' start (position - start)).foldl
    (fun acc i => keepContextLine m acc (lines.getD i "")) []

/-- `getContextAfter(lines, position, count)`: walk the raw indices
`(position, min(lines.length, position + count + 1))` and keep eligible
trimmed lines. -/
def getContextAfter (m : Markers) (lines : List String) (position count : Nat) : List String :=
  let stop := min lines.length (position + count + 1)
  (List.range' (position + 1) (stop - (position + 1))).foldl
    (fun acc i => keepContextLine m acc (lines.getD i "")) []

/-- The while-loop of `matchesContext`, recursing over the remaining document
lines and the remaining context lines. -/
def matchesGo (skipEmpty : Bool) : List String → List String → Bool
  | _, [] => true
  | [], _ :: _ => false
  | l :: ls, c :: cs =>
    let line := jsTrim l
    if skipEmpty && line == "" then
      matchesGo skipEmpty ls (c :: cs)
    else if line == c then
      matchesGo skipEmpty ls cs
    else if jsIncludes line c || jsIncludes c line then
      matchesGo skipEmpty ls cs
    else
      false

/-- `matchesContext(lines, startPos, context, skipEmpty)`. -/
def matchesContext (lines : List String) (startPos : Nat) (context : List String) (skipEmpty : Bool) : Bool :=
  matchesGo skipEmpty (lines.drop startPos) context

/-- The for-loop of `findInsertPosition`, with the iterations still to run as
fuel (the JS loop runs `i` from 0 while `i < lines.length`). -/
def findInsertGo (lines contextBefore : List String) (i fuel : Nat) : Option Nat :=
  match fuel with
  | 0 => none
  | f + 1 =>
    if matchesContext lines i contextBefore true then
      if i + contextBefore.length < lines.length then some (i + contextBefore.length)
      else findInsertGo lines contextBefore (i + 1) f
    else findInsertGo lines contextBefore (i + 1) f

/-- `findInsertPosition(lines, contextBefore, contextAfter)`; the JS function
ignores its `contextAfter` argument, so it is dropped here.  Returns `none`
for the JS sentinel `-1`. -/
def findInsertPosition (lines contextBefore : List String) : Option Nat :=
  findInsertGo lines contextBefore 0 lines.length

/-- The for-loop of `findContextAfterPosition`, again fuel-indexed. -/
def findAfterGo (lines contextAfter : List String) (i fuel : Nat) : Option Nat :=
  match fuel with
  | 0 => none
  | f + 1 =>
    if matchesContext lines i contextAfter false then some i
    else findAfterGo lines contextAfter (i + 1) f

/-- `findContextAfterPosition(lines, contextAfter, startFrom)`: scan
`[startFrom, min(lines.length, startFrom + 20))` for the first match. -/
def findContextAfterPosition (lines contextAfter : List String) (startFrom : Nat) : Option Nat :=
  findAfterGo lines contextAfter startFrom (min lines.length (startFrom + 20) - startFrom)

/-- A merge warning as pushed by `intelligentMerge` on the missing-context
path (`type`, `message`, truncated `block` preview). -/
structure MergeWarning where
  type : String
  message : String
  block : String
  deriving DecidableEq, Repr

/-- JS `s.substring(0, n)`. -/
def jsSubstring (s : String) (n : Nat) : String := String.mk (s.data.take n)

/-- The warning record pushed when no matching context is found; the line
numbers interpolated into the message are the internal 0-indexed
`block.start` and `block.end`. -/
def contextMissingWarning (b : Block) : MergeWarning :=
  { type := "protected_block_context_missing",
    message := "Protected block at lines " ++ toString b.start ++ "-" ++ toString b.stop ++
      " has no matching context in main-app. Main may have removed this section.",
    block := jsSubstring b.content 100 ++ "..." }

/-- The visible marker line inserted before an appended orphan block. -/
def warningLine : String :=
  "// ⚠️ WARNING: This block was preserved but context not found in main-app"

/-- One iteration of the `intelligentMerge` block loop, transforming the
working document and the accumulated warnings.  The replacement branch
mirrors `result.splice(replaceStart, replaceEnd - replaceStart, ...blockLines)`,
the insertion branch `result.splice(insertPosition, 0, ...blockLines)`, and
the fallback appends an empty line, the warning marker line and the block. -/
def processBlock (m : Markers) (demoLines : List String) (st : List String × List MergeWarning) (b : Block) : List String × List MergeWarning :=
  let result := st.1
  let warnings := st.2
  let contextBefore := getContextBefore m demoLines b.start 3
  let contextAfter := getContextAfter m demoLines b.stop 3
  match findInsertPosition result contextBefore with
  | some insertPosition =>
    let blockLines := splitOnNl b.content
    match findContextAfterPosition result contextAfter insertPosition with
    | some replaceEnd =>
      (result.take insertPosition ++ blockLines ++
        result.drop (insertPosition + (replaceEnd - insertPosition)), warnings)
    | none =>
      (result.take insertPosition ++ blockLines ++ result.drop insertPosition, warnings)
  | none =>
    (result ++ ["", warningLine] ++ splitOnNl b.content, warnings ++ [contextMissingWarning b])

/-- The whole block loop of `intelligentMerge`, at the line-list level:
start from a copy of the main lines and fold every protected block through
`processBlock`. -/
def intelligentMergeLines (m : Markers) (mainContent demoContent : String) (blocks : List Block) : List String × List MergeWarning :=
  blocks.foldl (processBlock m (splitOnNl demoContent)) (splitOnNl mainContent, [])

/-- `intelligentMerge(mainContent, demoContent, protectedBlocks)`: the final
working document joined back into text, plus the warnings. -/
def intelligentMerge (m : Markers) (mainContent demoContent : String) (blocks : List Block) : String × List MergeWarning :=
  let r := intelligentMergeLines m mainContent demoContent blocks
  (joinNl r.1, r.2)

/-- The pure content of `smartMergeFile`: extract the protected blocks of
the derivative; with zero blocks the source file is copied verbatim and no
warning is produced, otherwise merge intelligently. -/
def smartMergeFile (m : Markers) (mainContent demoContent : String) : String × List MergeWarning :=
  let protectedBlocks := extractProtectedBlocks demoContent m
  if protectedBlocks.isEmpty then (mainContent, [])
  else intelligentMerge m mainContent demoContent protectedBlocks

/-- Result record of the count-comparing validator of the sync script. -/
structure ValidationCheck where
  valid : Bool
  error : Option String
  deriving DecidableEq, Repr

/-- `validateProtectedBlocks(content)` from the sync script: one counter is
incremented on every line containing a start marker and decremented on every
line containing an end marker; any nonzero final value is invalid. -/
def validateProtectedBlocks (m : Markers) (content : String) : ValidationCheck :=
  let lines := splitOnNl content
  let openBlocks : Int := lines.foldl
    (fun acc line =>
      let acc1 := if containsAny line m.startMarkers then acc + 1 else acc
      if containsAny line m.endMarkers then acc1 - 1 else acc1) 0
  if openBlocks != 0 then
    { valid := false,
      error := some ("Unclosed protected blocks: " ++
        (if openBlocks > 0 then "missing END" else "missing START")) }
  else
    { valid := true, error := none }

/-- An error record pushed by the validator script. -/
structure SyncError where
  file : String
  type : String
  line : Nat
  message : String
  deriving DecidableEq, Repr

/-- The scan loop of `SyncValidator.validateProtectedBlocks`: counts open
blocks, records 1-indexed block start lines, and reports an end marker seen
with no open block (resetting the counter to zero afterwards). -/
def syncValidateLoop (sm em : List String) (fp : String) :
    List String → Nat → Int → List Nat → List SyncError → List SyncError × Int × List Nat
  | [], _, openBlocks, blockStarts, errs => (errs, openBlocks, blockStarts)
  | line :: rest, i, openBlocks, blockStarts, errs =>
    let ob1 := if containsAny line sm then openBlocks + 1 else openBlocks
    let bs1 := if containsAny line sm then blockStarts ++ [i + 1] else blockStarts
    if containsAny line em then
      if ob1 - 1 < 0 then
        let e : SyncError :=
          { file := fp, type := "protected_block", line := i + 1,
            message := "INTENTIONAL-END without matching INTENTIONAL-START" }
        syncValidateLoop sm em fp rest (i + 1) 0 bs1 (errs ++ [e])
      else
        syncValidateLoop sm em fp rest (i + 1) (ob1 - 1) bs1 errs
    else
      syncValidateLoop sm em fp rest (i + 1) ob1 bs1 errs

/-- `SyncValidator.validateProtectedBlocks(filePath, content)`: run the scan
and, if blocks remain open, add the unclosed-block error at the last recorded
(1-indexed) block start line. -/
def syncValidateProtectedBlocks (m : Markers) (fp content : String) : List SyncError :=
  let lines := splitOnNl content
  let r := syncValidateLoop m.startMarkers m.endMarkers fp lines 0 0 [] []
  if r.2.1 > 0 then
    let e : SyncError :=
      { file := fp, type := "protected_block", line := r.2.2.getLastD 0,
        message := toString r.2.1 ++ " unclosed INTENTIONAL block(s) - missing INTENTIONAL-END" }
    r.1 ++ [e]
  else r.1

/-! ### Characterization of the anchor-search loops -/

/-- A position the insert-position loop accepts: the before-context matches
there and the resulting insertion point is strictly inside the document. -/
def goodInsertPos (lines ctx : List String) (i : Nat) : Prop :=
  matchesContext lines i ctx true = true ∧ i + ctx.length < lines.length

instance goodInsertPos.dec (lines ctx : List String) (i : Nat) : Decidable (goodInsertPos lines ctx i) := by
  unfold goodInsertPos; infer_instance

lemma findInsertGo_good (lines ctx : List String) (i f : Nat)
    (h : goodInsertPos lines ctx i) :
    findInsertGo lines ctx i (f + 1) = some (i + ctx.length) := by
  unfold findInsertGo
  rw [if_pos h.1, if_pos h.2]

lemma findInsertGo_not_good (lines ctx : List String) (i f : Nat)
    (h : ¬ goodInsertPos lines ctx i) :
    findInsertGo lines ctx i (f + 1) = findInsertGo lines ctx (i + 1) f := by
  conv_lhs => unfold findInsertGo
  by_cases hm : matchesContext lines i ctx true = true
  · rw [if_pos hm, if_neg (fun hb => h ⟨hm, hb⟩)]
  · rw [if_neg hm]

lemma findInsertGo_some_iff (lines ctx : List String) :
    ∀ f i p, findInsertGo lines ctx i f = some p ↔
      ∃ j, i ≤ j ∧ j < i + f ∧ goodInsertPos lines ctx j ∧ p = j + ctx.length ∧
        ∀ k, i ≤ k → k < j → ¬ goodInsertPos lines ctx k := by
  intro f
  induction f with
  | zero =>
    intro i p
    constructor
    · intro h; simp [findInsertGo] at h
    · rintro ⟨j, h1, h2, -⟩; omega
  | succ f ih =>
    intro i p
    by_cases hg : goodInsertPos lines ctx i
    · rw [findInsertGo_good lines ctx i f hg]
      constructor
      · intro h
        refine ⟨i, le_refl i, by omega, hg, by simpa using h.symm, ?_⟩
        intro k h1 h2; omega
      · rintro ⟨j, h1, h2, h3, h4, h5⟩
        have hj : j = i := by
          by_contra hne
          exact h5 i (le_refl i) (by omega) hg
        subst hj
        simp [h4]
    · rw [findInsertGo_not_good lines ctx i f hg]
      rw [ih (i + 1) p]
      constructor
      · rintro ⟨j, h1, h2, h3, h4, h5⟩
        refine ⟨j, by omega, by omega, h3, h4, ?_⟩
        intro k hk1 hk2
        rcases Nat.eq_or_lt_of_le hk1 with hk | hk
        · subst hk; exact hg
        · exact h5 k hk hk2
      · rintro ⟨j, h1, h2, h3, h4, h5⟩
        have hji : i ≠ j := by
          rintro rfl; exact hg h3
        refine ⟨j, by omega, by omega, h3, h4, ?_⟩
        intro k hk1 hk2; exact h5 k (by omega) hk2

lemma findInsertGo_none_iff (lines ctx : List String) :
    ∀ f i, findInsertGo lines ctx i f = none ↔
      ∀ j, i ≤ j → j < i + f → ¬ goodInsertPos lines ctx j := by
  intro f
  induction f with
  | zero =>
    intro i
    constructor
    · intro _ j h1 h2; omega
    · intro _; simp [findInsertGo]
  | succ f ih =>
    intro i
    by_cases hg : goodInsertPos lines ctx i
    · rw [findInsertGo_good lines ctx i f hg]
      simp only [reduceCtorEq, false_iff]  -- some ≠ none
      intro h
      exact h i (le_refl i) (by omega) hg
    · rw [findInsertGo_not_good lines ctx i f hg, ih (i + 1)]
      constructor
      · intro h j h1 h2
        rcases Nat.eq_or_lt_of_le h1 with hk | hk
        · subst hk; exact hg
        · exact h j hk (by omega)
      · intro h j h1 h2
        exact h j (by omega) (by omega)

/-- A before-context matching at or past the end of the document is
impossible unless the context is empty. -/
lemma matchesContext_of_ge_length (lines ctx : List String) (i : Nat)
    (hc : ctx ≠ []) (hi : lines.length ≤ i) :
    matchesContext lines i ctx true = false := by
  unfold matchesContext
  rw [List.drop_eq_nil_of_le hi]
  cases ctx with
  | nil => exact absurd rfl hc
  | cons c cs => rfl

lemma findAfterGo_hit (lines ctx : List String) (i f : Nat)
    (h : matchesContext lines i ctx false = true) :
    findAfterGo lines ctx i (f + 1) = some i := by
  conv_lhs => unfold findAfterGo
  rw [if_pos h]

lemma findAfterGo_miss (lines ctx : List String) (i f : Nat)
    (h : matchesContext lines i ctx false = false) :
    findAfterGo lines ctx i (f + 1) = findAfterGo lines ctx (i + 1) f := by
  conv_lhs => unfold findAfterGo
  rw [if_neg (by simp [h])]

lemma findAfterGo_some_iff (lines ctx : List String) :
    ∀ f i j, findAfterGo lines ctx i f = some j ↔
      i ≤ j ∧ j < i + f ∧ matchesContext lines j ctx false = true ∧
        ∀ k, i ≤ k → k < j → matchesContext lines k ctx false = false := by
  intro f
  induction f with
  | zero =>
    intro i j
    constructor
    · intro h; simp [findAfterGo] at h
    · rintro ⟨h1, h2, -⟩; omega
  | succ f ih =>
    intro i j
    rcases hm : matchesContext lines i ctx false with hv | hv
    · rw [findAfterGo_miss lines ctx i f hm, ih (i + 1)]
      constructor
      · rintro ⟨h1, h2, h3, h4⟩
        refine ⟨by omega, by omega, h3, ?_⟩
        intro k hk1 hk2
        rcases Nat.eq_or_lt_of_le hk1 with hk | hk
        · subst hk; exact hm
        · exact h4 k hk hk2
      · rintro ⟨h1, h2, h3, h4⟩
        have : i ≠ j := by
          rintro rfl
          rw [hm] at h3; exact Bool.false_ne_true h3
        refine ⟨by omega, by omega, h3, ?_⟩
        intro k hk1 hk2; exact h4 k (by omega) hk2
    · rw [findAfterGo_hit lines ctx i f hm]
      constructor
      · intro h
        have hj : j = i := by simpa using h.symm
        subst hj
        exact ⟨le_refl j, by omega, hm, fun k hk1 hk2 => by omega⟩
      · rintro ⟨h1, h2, h3, h4⟩
        have hj : i = j := by
          by_contra hne
          have := h4 i (le_refl i) (by omega)
          rw [hm] at this
          simp at this
        rw [hj]

lemma findAfterGo_none_iff (lines ctx : List String) :
    ∀ f i, findAfterGo lines ctx i f = none ↔
      ∀ k, i ≤ k → k < i + f → matchesContext lines k ctx false = false := by
  intro f
  induction f with
  | zero =>
    intro i
    constructor
    · intro _ k h1 h2; omega
    · intro _; simp [findAfterGo]
  | succ f ih =>
    intro i
    rcases hm : matchesContext lines i ctx false with hv | hv
    · rw [findAfterGo_miss lines ctx i f hm, ih (i + 1)]
      constructor
      · intro h k h1 h2
        rcases Nat.eq_or_lt_of_le h1 with hk | hk
        · subst hk; exact hm
        · exact h k hk (by omega)
      · intro h k h1 h2
        exact h k (by omega) (by omega)
    · rw [findAfterGo_hit lines ctx i f hm]
      simp only [reduceCtorEq, false_iff]
      intro h
      have := h i (le_refl i) (by omega)
      rw [hm] at this
      simp at this

/-- What a successful after-context search of `findContextAfterPosition`
means: it is the earliest match, it lies at or after the start position,
within the 20-line lookahead and inside the document. -/
lemma findContextAfterPosition_some (lines ctx : List String) (s j : Nat)
    (h : findContextAfterPosition lines ctx s = some j) :
    s ≤ j ∧ j < s + 20 ∧ j < lines.length ∧ matchesContext lines j ctx false = true ∧
      ∀ k, s ≤ k → k < j → matchesContext lines k ctx false = false := by
  unfold findContextAfterPosition at h
  rw [findAfterGo_some_iff] at h
  rcases h with ⟨h1, h2, h3, h4⟩
  rcases le_total lines.length (s + 20) with hmin | hmin
  · rw [min_eq_left hmin] at h2
    exact ⟨h1, by omega, by omega, h3, h4⟩
  · rw [min_eq_right hmin] at h2
    exact ⟨h1, by omega, by omega, h3, h4⟩

/-- What a failed after-context search means: no position in the bounded
lookahead window matches. -/
lemma findContextAfterPosition_none (lines ctx : List String) (s : Nat)
    (h : findContextAfterPosition lines ctx s = none) :
    ∀ k, s ≤ k → k < min lines.length (s + 20) → matchesContext lines k ctx false = false := by
  unfold findContextAfterPosition at h
  rw [findAfterGo_none_iff] at h
  intro k h1 h2
  exact h k h1 (by omega)

/-- Characterization of `findInsertPosition`: it succeeds exactly on the
earliest good position (a match whose insertion point is strictly inside the
document), returning that insertion point. -/
lemma findInsertPosition_some_iff (lines ctx : List String) (p : Nat) :
    findInsertPosition lines ctx = some p ↔
      ∃ j, goodInsertPos lines ctx j ∧ p = j + ctx.length ∧
        ∀ k, k < j → ¬ goodInsertPos lines ctx k := by
  unfold findInsertPosition
  rw [findInsertGo_some_iff]
  constructor
  · rintro ⟨j, h1, h2, h3, h4, h5⟩
    exact ⟨j, h3, h4, fun k hk => h5 k (by omega) hk⟩
  · rintro ⟨j, h3, h4, h5⟩
    have hj : j < lines.length := by
      have := h3.2; omega
    exact ⟨j, by omega, by omega, h3, h4, fun k _ hk => h5 k hk⟩

/-- Characterization of a failed `findInsertPosition`: no good position at
all. -/
lemma findInsertPosition_none_iff (lines ctx : List String) :
    findInsertPosition lines ctx = none ↔ ∀ j, ¬ goodInsertPos lines ctx j := by
  unfold findInsertPosition
  rw [findInsertGo_none_iff]
  constructor
  · intro h j
    by_cases hj : j < lines.length
    · exact h j (by omega) (by omega)
    · intro hg
      have := hg.2; omega
  · intro h j _ _
    exact h j

lemma matchesGo_nil_ctx (sk : Bool) (l : List String) : matchesGo sk l [] = true := by
  cases l <;> rfl

/-! ### Claim theorems -/

/-- C2: if extracting protected blocks from the derivative yields zero
blocks, `smartMergeFile` returns the source document verbatim and an empty
warning list. -/
theorem C2_no_block_identity (m : Markers) (mainContent demoContent : String)
    (h : extractProtectedBlocks demoContent m = []) :
    smartMergeFile m mainContent demoContent = (mainContent, []) := by
  simp [smartMergeFile, h]

/-- C2 witness: a derivative with no markers merges to the source verbatim. -/
theorem C2_no_block_identity_witness :
    extractProtectedBlocks "hello\nworld" { startMarkers := ["<<"], endMarkers := [">>"] } = [] ∧
    smartMergeFile { startMarkers := ["<<"], endMarkers := [">>"] } "x\ny" "hello\nworld" = ("x\ny", []) :=
  ⟨by decide, C2_no_block_identity _ _ _ (by decide)⟩

/-- C10: a block whose sampled before-context window is empty is anchored at
position 0 of any non-empty working document (insertion point 0), so it is
never routed to the append-with-warning fallback and adds no warning. -/
theorem C10_empty_context_anchors_top (m : Markers) (demoLines result : List String)
    (ws : List MergeWarning) (b : Block)
    (hres : result ≠ [])
    (hctx : getContextBefore m demoLines b.start 3 = []) :
    findInsertPosition result (getContextBefore m demoLines b.start 3) = some 0 ∧
    (processBlock m demoLines (result, ws) b).2 = ws := by
  have hfip : findInsertPosition result [] = some 0 := by
    rw [findInsertPosition_some_iff]
    refine ⟨0, ⟨?_, ?_⟩, by simp, fun k hk => by omega⟩
    · exact matchesGo_nil_ctx true (result.drop 0)
    · simpa using List.length_pos.mpr hres
  refine ⟨by rw [hctx]; exact hfip, ?_⟩
  simp only [processBlock, hctx, hfip]
  cases hfa : findContextAfterPosition result (getContextAfter m demoLines b.stop 3) 0 <;> simp [hfa]

/-- C10 witness: a block starting at line 0 of the derivative has an empty
before-context and anchors at the top of the source. -/
theorem C10_empty_context_anchors_top_witness :
    findInsertPosition ["x", "y"]
      (getContextBefore { startMarkers := ["<<"], endMarkers := [">>"] } ["<<", "P", ">>"] 0 3) = some 0 ∧
    (processBlock { startMarkers := ["<<"], endMarkers := [">>"] } ["<<", "P", ">>"]
      (["x", "y"], []) { start := 0, stop := 2, content := "<<\nP\n>>" }).2 = [] :=
  C10_empty_context_anchors_top { startMarkers := ["<<"], endMarkers := [">>"] } ["<<", "P", ">>"]
    ["x", "y"] [] { start := 0, stop := 2, content := "<<\nP\n>>" } (by decide) (by decide)

/-- C3: when the anchor is not found, the block is appended at the end,
preceded by an empty line and the visible warning marker line; exactly one
context-missing warning is emitted, carrying the block line range and a
100-character preview; the block is never dropped and the document grows by
the block line count plus two. -/
theorem C3_missing_context_fallback (m : Markers) (demoLines result : List String)
    (ws : List MergeWarning) (b : Block)
    (h : findInsertPosition result (getContextBefore m demoLines b.start 3) = none) :
    processBlock m demoLines (result, ws) b =
      (result ++ ["", warningLine] ++ splitOnNl b.content, ws ++ [contextMissingWarning b]) ∧
    splitOnNl b.content <:+: (processBlock m demoLines (result, ws) b).1 ∧
    (processBlock m demoLines (result, ws) b).1.length =
      result.length + 2 + (splitOnNl b.content).length ∧
    (processBlock m demoLines (result, ws) b).2 = ws ++ [contextMissingWarning b] ∧
    (contextMissingWarning b).message =
      "Protected block at lines " ++ toString b.start ++ "-" ++ toString b.stop ++
        " has no matching context in main-app. Main may have removed this section." ∧
    (contextMissingWarning b).block = jsSubstring b.content 100 ++ "..." := by
  have heq : processBlock m demoLines (result, ws) b =
      (result ++ ["", warningLine] ++ splitOnNl b.content, ws ++ [contextMissingWarning b]) := by
    simp only [processBlock, h]
  refine ⟨heq, ?_, ?_, ?_, rfl, rfl⟩
  · rw [heq]
    exact ⟨result ++ ["", warningLine], [], by simp⟩
  · rw [heq]
    simp
    omega
  · rw [heq]

/-- C3 witness: a block with no matching context in the source is appended
with the warning marker line and one warning. -/
theorem C3_missing_context_fallback_witness :
    processBlock { startMarkers := ["<<"], endMarkers := [">>"] } ["ctxline", "<<", "P", ">>", "tail"]
        (["totally", "different", "content"], []) { start := 1, stop := 3, content := "<<\nP\n>>" } =
      (["totally", "different", "content"] ++ ["", warningLine] ++ splitOnNl "<<\nP\n>>",
        [] ++ [contextMissingWarning { start := 1, stop := 3, content := "<<\nP\n>>" }]) :=
  (C3_missing_context_fallback _ _ _ _ _ (by decide)).1

/-- C4 counterexample: in the document `["a"]` the before-context `["a"]`
matches at position 0, yet the locator returns NotFound, because the
candidate insertion point `0 + 1` is not strictly inside the document.  The
claim says the first matching position is always accepted. -/
theorem C4_counterexample :
    matchesContext ["a"] 0 ["a"] true = true ∧ findInsertPosition ["a"] ["a"] = none := by
  constructor <;> rfl

/-- C4 (amended): the locator scans positions from 0 upward and accepts the
first position that both matches the before-context and has its insertion
point `i + len(beforeLines)` strictly inside the document, returning that
insertion point; matching positions whose insertion point would fall at the
end of the document are skipped, and if no qualifying position exists it
returns NotFound.  No proximity-based disambiguation happens. -/
theorem C4_first_match_amended (lines ctx : List String) (p : Nat) :
    (findInsertPosition lines ctx = some p ↔
      ∃ j, (matchesContext lines j ctx true = true ∧ j + ctx.length < lines.length) ∧
        p = j + ctx.length ∧
        ∀ k, k < j → ¬ (matchesContext lines k ctx true = true ∧ k + ctx.length < lines.length)) ∧
    (findInsertPosition lines ctx = none ↔
      ∀ j, ¬ (matchesContext lines j ctx true = true ∧ j + ctx.length < lines.length)) := by
  constructor
  · rw [findInsertPosition_some_iff]
    simp only [goodInsertPos]
  · rw [findInsertPosition_none_iff]
    simp only [goodInsertPos]

/-- C4 witness: in `["a", "b"]` the context `["a"]` is accepted at the first
qualifying position 0 with insertion point 1. -/
theorem C4_first_match_amended_witness :
    ∃ j, (matchesContext ["a", "b"] j ["a"] true = true ∧ j + 1 < 2) ∧
      1 = j + 1 ∧ ∀ k, k < j → ¬ (matchesContext ["a", "b"] k ["a"] true = true ∧ k + 1 < 2) :=
  (C4_first_match_amended ["a", "b"] ["a"] 1).1.mp (by rfl)

/-- C5: the after-context search scans forward from the insertion point over
at most 20 positions inside the document and returns the earliest match; on
success the merge replaces the span from the insertion point up to (but
excluding) the matched position with the block lines, and on failure it
inserts the block lines at the insertion point without removing any line. -/
theorem C5_after_context_span :
    (∀ (lines ctx : List String) (s j : Nat), findContextAfterPosition lines ctx s = some j →
        s ≤ j ∧ j < s + 20 ∧ j < lines.length ∧ matchesContext lines j ctx false = true ∧
          ∀ k, s ≤ k → k < j → matchesContext lines k ctx false = false) ∧
    (∀ (lines ctx : List String) (s : Nat), findContextAfterPosition lines ctx s = none →
        ∀ k, s ≤ k → k < min lines.length (s + 20) → matchesContext lines k ctx false = false) ∧
    (∀ (m : Markers) (demoLines result : List String) (ws : List MergeWarning) (b : Block) (p : Nat),
      findInsertPosition result (getContextBefore m demoLines b.start 3) = some p →
        (∀ e, findContextAfterPosition result (getContextAfter m demoLines b.stop 3) p = some e →
          processBlock m demoLines (result, ws) b =
            (result.take p ++ splitOnNl b.content ++ result.drop e, ws)) ∧
        (findContextAfterPosition result (getContextAfter m demoLines b.stop 3) p = none →
          processBlock m demoLines (result, ws) b =
            (result.take p ++ splitOnNl b.content ++ result.drop p, ws))) := by
  refine ⟨findContextAfterPosition_some, findContextAfterPosition_none, ?_⟩
  intro m demoLines result ws b p hp
  constructor
  · intro e he
    have hpe : p ≤ e := (findContextAfterPosition_some _ _ _ _ he).1
    have hdrop : p + (e - p) = e := by omega
    simp only [processBlock, hp, he, hdrop]
  · intro he
    simp only [processBlock, hp, he]

/-- C5 witness: with source `["q", "X", "z"]`, before-context `["q"]` and
after-context `["z"]`, the span `[1, 2)` is replaced by the block lines. -/
theorem C5_after_context_span_witness :
    processBlock { startMarkers := ["<<"], endMarkers := [">>"] } ["q", "<<", "P", ">>", "z"]
        (["q", "X", "z"], []) { start := 1, stop := 3, content := "<<\nP\n>>" } =
      ((["q", "X", "z"] : List String).take 1 ++ splitOnNl "<<\nP\n>>" ++
        (["q", "X", "z"] : List String).drop 2, []) :=
  ((C5_after_context_span.2.2 { startMarkers := ["<<"], endMarkers := [">>"] }
    ["q", "<<", "P", ">>", "z"] ["q", "X", "z"] []
    { start := 1, stop := 3, content := "<<\nP\n>>" } 1 (by decide)).1 2 (by decide))

/-- Whatever branch `processBlock` takes, the verbatim lines of the block it
is currently reinserting form a contiguous infix of its own output. -/
lemma processBlock_keeps_block (m : Markers) (demoLines : List String)
    (st : List String × List MergeWarning) (b : Block) :
    splitOnNl b.content <:+: (processBlock m demoLines st b).1 := by
  cases hp : findInsertPosition st.1 (getContextBefore m demoLines b.start 3) with
  | none =>
    simp only [processBlock, hp]
    exact ⟨st.1 ++ ["", warningLine], [], by simp⟩
  | some p =>
    cases ha : findContextAfterPosition st.1 (getContextAfter m demoLines b.stop 3) p with
    | none =>
      simp only [processBlock, hp, ha]
      exact ⟨st.1.take p, st.1.drop p, rfl⟩
    | some e =>
      simp only [processBlock, hp, ha]
      exact ⟨st.1.take p, st.1.drop (p + (e - p)), rfl⟩

/-- The block loop applied to `blocks ++ [b]` ends with one `processBlock`
step for `b`. -/
lemma intelligentMergeLines_append (m : Markers) (mainContent demoContent : String)
    (blocks : List Block) (b : Block) :
    intelligentMergeLines m mainContent demoContent (blocks ++ [b]) =
      processBlock m (splitOnNl demoContent)
        (intelligentMergeLines m mainContent demoContent blocks) b := by
  unfold intelligentMergeLines
  rw [List.foldl_append]
  rfl

/-- C1 (amended): preservation holds per reinsertion step, not globally.
Immediately after a block is reinserted, its exact verbatim content is a
contiguous infix of the working document; in particular the last processed
block survives into the final merged line list.  (A later block with a
replacement span overlapping an earlier splice can still remove the earlier
block, as the counterexample shows.) -/
theorem C1_per_step_preservation (m : Markers) (demoLines result : List String)
    (ws : List MergeWarning) (b : Block) (mainContent demoContent : String) (blocks : List Block) :
    splitOnNl b.content <:+: (processBlock m demoLines (result, ws) b).1 ∧
    splitOnNl b.content <:+: (intelligentMergeLines m mainContent demoContent (blocks ++ [b])).1 := by
  constructor
  · exact processBlock_keeps_block m demoLines (result, ws) b
  · rw [intelligentMergeLines_append]
    exact processBlock_keeps_block _ _ _ b

/-- C1 counterexample: two blocks are extracted from the derivative, both
anchors are found, yet the merged output no longer contains the first block
anywhere (the second block replacement span swallowed it) and no warning is
reported.  This refutes the unconditional preservation invariant. -/
theorem C1_counterexample :
    (extractProtectedBlocks "q\n<<\nA\n>>\nz\nq\n\n\n<<\nB\n>>\nz"
        { startMarkers := ["<<"], endMarkers := [">>"] }).map Block.content =
      ["<<\nA\n>>", "<<\nB\n>>"] ∧
    jsIncludes (smartMergeFile { startMarkers := ["<<"], endMarkers := [">>"] }
        "q\nz\nq\ny\nz" "q\n<<\nA\n>>\nz\nq\n\n\n<<\nB\n>>\nz").1 "<<\nA\n>>" = false ∧
    (smartMergeFile { startMarkers := ["<<"], endMarkers := [">>"] }
        "q\nz\nq\ny\nz" "q\n<<\nA\n>>\nz\nq\n\n\n<<\nB\n>>\nz").2 = [] := by
  exact ⟨by decide, by decide, by decide⟩

/-- The context-sampling fold over an index range equals filtering the
trimmed raw slice: the walk inspects exactly the raw lines of the range and
skipped lines are not compensated for. -/
lemma contextFold_eq_filter (m : Markers) (l : List String) :
    ∀ (n s : Nat) (acc : List String), s + n ≤ l.length →
      (List.range' s n).foldl (fun acc i => keepContextLine m acc (l.getD i "")) acc =
        acc ++ (((l.drop s).take n).map jsTrim).filter (fun x => x != "" && !isMarkerLine m x) := by
  intro n
  induction n with
  | zero => intro s acc _; simp
  | succ n ih =>
    intro s acc hs
    have hlt : s < l.length := by omega
    have hr : List.range' s (n + 1) = s :: List.range' (s + 1) n := rfl
    have hd : l.drop s = l[s] :: l.drop (s + 1) := List.drop_eq_getElem_cons hlt
    rw [hr, List.foldl_cons, ih (s + 1) _ (by omega), hd]
    simp only [List.take_succ_cons, List.map_cons, List.filter_cons]
    rw [keepContextLine, List.getD_eq_getElem l "" hlt]
    by_cases hp : (jsTrim l[s] != "" && !isMarkerLine m (jsTrim l[s])) = true
    · rw [if_pos hp, if_pos hp]
      simp
    · rw [if_neg hp, if_neg hp]

/-- C6 (amended): the sampled context windows inspect exactly the fixed raw
index ranges `[max(0, position - count), position)` before the block and
`(position, min(length, position + count + 1))` after it, keeping the
trimmed non-empty non-marker lines.  Blank and marker lines are skipped but
still consume the budget — the walk is never extended to compensate — and
each window therefore holds at most `count` lines, every one trimmed,
non-empty and marker-free. -/
theorem C6_budget_amended (m : Markers) (lines : List String) (position count : Nat)
    (h : position ≤ lines.length) :
    getContextBefore m lines position count =
      (((lines.drop (position - count)).take (position - (position - count))).map jsTrim).filter
        (fun x => x != "" && !isMarkerLine m x) ∧
    (getContextBefore m lines position count).length ≤ count ∧
    getContextAfter m lines position count =
      (((lines.drop (position + 1)).take
          (min lines.length (position + count + 1) - (position + 1))).map jsTrim).filter
        (fun x => x != "" && !isMarkerLine m x) ∧
    (getContextAfter m lines position count).length ≤ count ∧
    (∀ x ∈ getContextBefore m lines position count, x ≠ "" ∧ isMarkerLine m x = false) ∧
    (∀ x ∈ getContextAfter m lines position count, x ≠ "" ∧ isMarkerLine m x = false) := by
  have hbefore : getContextBefore m lines position count =
      (((lines.drop (position - count)).take (position - (position - count))).map jsTrim).filter
        (fun x => x != "" && !isMarkerLine m x) := by
    unfold getContextBefore
    rw [contextFold_eq_filter m lines (position - (position - count)) (position - count) []
      (by omega)]
    simp
  have hafter : getContextAfter m lines position count =
      (((lines.drop (position + 1)).take
          (min lines.length (position + count + 1) - (position + 1))).map jsTrim).filter
        (fun x => x != "" && !isMarkerLine m x) := by
    unfold getContextAfter
    rcases le_or_lt (position + 1) lines.length with hp | hp
    · rw [contextFold_eq_filter m lines (min lines.length (position + count + 1) - (position + 1))
        (position + 1) [] (by omega)]
      simp
    · have hz : min lines.length (position + count + 1) - (position + 1) = 0 := by omega
      simp [hz]
  have hlb : (getContextBefore m lines position count).length ≤ count := by
    rw [hbefore]
    calc ((((lines.drop (position - count)).take (position - (position - count))).map jsTrim).filter
            (fun x => x != "" && !isMarkerLine m x)).length
        ≤ (((lines.drop (position - count)).take (position - (position - count))).map jsTrim).length :=
          List.length_filter_le _ _
      _ ≤ position - (position - count) := by
          rw [List.length_map]
          exact List.length_take_le _ _
      _ ≤ count := by omega
  have hla : (getContextAfter m lines position count).length ≤ count := by
    rw [hafter]
    calc ((((lines.drop (position + 1)).take
              (min lines.length (position + count + 1) - (position + 1))).map jsTrim).filter
            (fun x => x != "" && !isMarkerLine m x)).length
        ≤ (((lines.drop (position + 1)).take
              (min lines.length (position + count + 1) - (position + 1))).map jsTrim).length :=
          List.length_filter_le _ _
      _ ≤ min lines.length (position + count + 1) - (position + 1) := by
          rw [List.length_map]
          exact List.length_take_le _ _
      _ ≤ count := by
          have := min_le_right lines.length (position + count + 1)
          omega
  refine ⟨hbefore, hlb, hafter, hla, ?_, ?_⟩
  · intro x hx
    rw [hbefore] at hx
    have := List.of_mem_filter hx
    simpa using this
  · intro x hx
    rw [hafter] at hx
    have := List.of_mem_filter hx
    simpa using this

/-- C6 witness: a concrete sampled window respects the fixed-budget bound. -/
theorem C6_budget_amended_witness :
    (getContextBefore { startMarkers := ["<<"], endMarkers := [">>"] }
      ["alpha", "beta", "", "", "<<"] 4 3).length ≤ 3 :=
  (C6_budget_amended { startMarkers := ["<<"], endMarkers := [">>"] }
    ["alpha", "beta", "", "", "<<"] 4 3 (by decide)).2.1

/-- C6 counterexample: with window size 3 over `["alpha", "beta", "", ""]`
before the marker line, the two blank lines consume the budget, so only
`"beta"` is sampled even though the eligible line `"alpha"` lies just one
step farther out (well within three times the window).  The claim says the
walk extends to compensate for skipped lines. -/
theorem C6_counterexample :
    getContextBefore { startMarkers := ["<<"], endMarkers := [">>"] }
        ["alpha", "beta", "", "", "<<"] 4 3 = ["beta"] ∧
    jsTrim "alpha" = "alpha" ∧
    isMarkerLine { startMarkers := ["<<"], endMarkers := [">>"] } "alpha" = false := by
  exact ⟨by decide, by decide, by decide⟩

/-- The marker-counting fold of the count-comparing validator computes the
number of start-marker lines minus the number of end-marker lines. -/
lemma validateFold_eq_counts (m : Markers) :
    ∀ (ls : List String) (acc : Int),
      ls.foldl (fun acc line =>
          let acc1 := if containsAny line m.startMarkers then acc + 1 else acc
          if containsAny line m.endMarkers then acc1 - 1 else acc1) acc =
        acc + (ls.countP (fun l => containsAny l m.startMarkers) : Int) -
          (ls.countP (fun l => containsAny l m.endMarkers) : Int) := by
  intro ls
  induction ls with
  | nil => intro acc; simp
  | cons l t ih =>
    intro acc
    simp only [List.foldl_cons, List.countP_cons]
    rw [ih]
    by_cases hs : containsAny l m.startMarkers <;> by_cases he : containsAny l m.endMarkers <;>
      simp [hs, he] <;> omega

/-- C8 (amended): the count-comparing validator flags a document as invalid
exactly when the number of lines containing a start marker differs from the
number of lines containing an end marker.  (This detects unclosed starts,
but a balanced document with an end marker before any start passes it, as
the counterexample shows; only the streaming SyncValidator reports that
case.) -/
theorem C8_count_validator_amended (m : Markers) (content : String) :
    (validateProtectedBlocks m content).valid = true ↔
      (splitOnNl content).countP (fun l => containsAny l m.startMarkers) =
        (splitOnNl content).countP (fun l => containsAny l m.endMarkers) := by
  simp only [validateProtectedBlocks]
  rw [validateFold_eq_counts]
  by_cases h : ((splitOnNl content).countP (fun l => containsAny l m.startMarkers) : Int) =
      ((splitOnNl content).countP (fun l => containsAny l m.endMarkers) : Int)
  · have hz : (0 : Int) + ((splitOnNl content).countP (fun l => containsAny l m.startMarkers) : Int) -
        ((splitOnNl content).countP (fun l => containsAny l m.endMarkers) : Int) = 0 := by omega
    rw [hz]
    simp only [bne_self_eq_false, Bool.false_eq_true, if_false]
    constructor
    · intro _
      exact_mod_cast h
    · intro _; trivial
  · have hz : (0 : Int) + ((splitOnNl content).countP (fun l => containsAny l m.startMarkers) : Int) -
        ((splitOnNl content).countP (fun l => containsAny l m.endMarkers) : Int) ≠ 0 := by omega
    rw [if_pos (by simpa using hz)]
    constructor
    · intro hfalse
      simp at hfalse
    · intro heq
      exact absurd (by exact_mod_cast heq) h

/-- C8 counterexample: the document with an end-marker line followed by a
start-marker line is malformed (its end marker has no matching start, and
the streaming SyncValidator reports two protected-block errors on it), yet
the count-comparing validator reports it valid because the line counts
balance. -/
theorem C8_counterexample :
    (validateProtectedBlocks { startMarkers := ["<<"], endMarkers := [">>"] } ">>\n<<").valid = true ∧
    (syncValidateProtectedBlocks { startMarkers := ["<<"], endMarkers := [">>"] } "f.js" ">>\n<<").map
        SyncError.message =
      ["INTENTIONAL-END without matching INTENTIONAL-START",
        "1 unclosed INTENTIONAL block(s) - missing INTENTIONAL-END"] := by
  exact ⟨by decide, by decide⟩

lemma getLastD_mem : ∀ (l : List Nat) (d : Nat), l ≠ [] → l.getLastD d ∈ l
  | [], _, h => absurd rfl h
  | [x], _, _ => by simp
  | x :: y :: t, d, _ => by
    rw [List.getLastD_cons]
    exact List.mem_cons_of_mem x (getLastD_mem (y :: t) x (by simp))

/-- Invariant of the SyncValidator scan loop: every recorded block-start
line and every reported error line is a 0-indexed scan position plus one,
hence between 1 and the total line count; and the open-block counter never
exceeds the number of recorded block starts. -/
lemma syncValidateLoop_bounds (sm em : List String) (fp : String) :
    ∀ (rest : List String) (i : Nat) (ob : Int) (bsAcc : List Nat) (errsAcc : List SyncError),
      (∀ x ∈ bsAcc, 1 ≤ x ∧ x ≤ i + rest.length) →
      (∀ e ∈ errsAcc, 1 ≤ e.line ∧ e.line ≤ i + rest.length) →
      ob ≤ (bsAcc.length : Int) →
      (∀ e ∈ (syncValidateLoop sm em fp rest i ob bsAcc errsAcc).1,
        1 ≤ e.line ∧ e.line ≤ i + rest.length) ∧
      (∀ x ∈ (syncValidateLoop sm em fp rest i ob bsAcc errsAcc).2.2,
        1 ≤ x ∧ x ≤ i + rest.length) ∧
      (syncValidateLoop sm em fp rest i ob bsAcc errsAcc).2.1 ≤
        ((syncValidateLoop sm em fp rest i ob bsAcc errsAcc).2.2.length : Int) := by
  intro rest
  induction rest with
  | nil =>
    intro i ob bsAcc errsAcc hbs herr hob
    exact ⟨herr, hbs, hob⟩
  | cons line rest ih =>
    intro i ob bsAcc errsAcc hbs herr hob
    have hlen : i + (line :: rest).length = (i + 1) + rest.length := by
      simp only [List.length_cons]
      omega
    rw [hlen] at hbs herr ⊢
    have hbs1 : ∀ x ∈ bsAcc ++ [i + 1], 1 ≤ x ∧ x ≤ (i + 1) + rest.length := by
      intro x hx
      rcases List.mem_append.mp hx with hx | hx
      · exact hbs x hx
      · have hx1 : x = i + 1 := by simpa using hx
        omega
    have herr1 : ∀ e ∈ errsAcc ++
        [(⟨fp, "protected_block", i + 1,
          "INTENTIONAL-END without matching INTENTIONAL-START"⟩ : SyncError)],
        1 ≤ e.line ∧ e.line ≤ (i + 1) + rest.length := by
      intro e he
      rcases List.mem_append.mp he with he | he
      · exact herr e he
      · have he1 : e = ⟨fp, "protected_block", i + 1,
            "INTENTIONAL-END without matching INTENTIONAL-START"⟩ := by simpa using he
        rw [he1]
        show 1 ≤ i + 1 ∧ i + 1 ≤ (i + 1) + rest.length
        omega
    cases hsm : containsAny line sm with
    | false =>
      cases hem : containsAny line em with
      | false =>
        simp only [syncValidateLoop, hsm, hem, Bool.false_eq_true, if_false]
        exact ih (i + 1) ob bsAcc errsAcc hbs herr hob
      | true =>
        simp only [syncValidateLoop, hsm, hem, Bool.false_eq_true, if_false, if_true]
        by_cases hneg : (ob - 1 : Int) < 0
        · rw [if_pos hneg]
          exact ih (i + 1) 0 bsAcc _ hbs herr1 (Int.natCast_nonneg _)
        · rw [if_neg hneg]
          exact ih (i + 1) (ob - 1) bsAcc errsAcc hbs herr (by omega)
    | true =>
      cases hem : containsAny line em with
      | false =>
        simp only [syncValidateLoop, hsm, hem, Bool.false_eq_true, if_false, if_true]
        refine ih (i + 1) (ob + 1) _ errsAcc hbs1 herr ?_
        simp only [List.length_append, List.length_cons, List.length_nil]
        push_cast
        omega
      | true =>
        simp only [syncValidateLoop, hsm, hem, if_true]
        by_cases hneg : (ob + 1 - 1 : Int) < 0
        · rw [if_pos hneg]
          exact ih (i + 1) 0 _ _ hbs1 herr1 (Int.natCast_nonneg _)
        · rw [if_neg hneg]
          refine ih (i + 1) (ob + 1 - 1) _ errsAcc hbs1 herr ?_
          simp only [List.length_append, List.length_cons, List.length_nil]
          push_cast
          omega

/-- C9 (amended): line numbers in the validator error records are 1-indexed
(each is an internal 0-indexed scan position plus one, so it lies between 1
and the line count), but the line numbers interpolated into the
context-missing merge warning message are the raw 0-indexed block start and
end. -/
theorem C9_line_numbering_amended :
    (∀ (m : Markers) (fp content : String) (e : SyncError),
      e ∈ syncValidateProtectedBlocks m fp content →
        1 ≤ e.line ∧ e.line ≤ (splitOnNl content).length) ∧
    (∀ b : Block, (contextMissingWarning b).message =
      "Protected block at lines " ++ toString b.start ++ "-" ++ toString b.stop ++
        " has no matching context in main-app. Main may have removed this section.") := by
  constructor
  · intro m fp content e he
    obtain ⟨hE, hB, hOB⟩ := syncValidateLoop_bounds m.startMarkers m.endMarkers fp
      (splitOnNl content) 0 0 [] [] (by simp) (by simp) (by simp)
    simp only [Nat.zero_add] at hE hB
    simp only [syncValidateProtectedBlocks] at he
    by_cases hpos :
        (0 : Int) < (syncValidateLoop m.startMarkers m.endMarkers fp (splitOnNl content) 0 0 [] []).2.1
    · rw [if_pos hpos] at he
      rcases List.mem_append.mp he with he | he
      · exact hE e he
      · have he1 : e = ⟨fp, "protected_block",
            (syncValidateLoop m.startMarkers m.endMarkers fp (splitOnNl content) 0 0 [] []).2.2.getLastD 0,
            toString (syncValidateLoop m.startMarkers m.endMarkers fp (splitOnNl content) 0 0 [] []).2.1 ++
              " unclosed INTENTIONAL block(s) - missing INTENTIONAL-END"⟩ := by
          simpa using he
        have hne : (syncValidateLoop m.startMarkers m.endMarkers fp (splitOnNl content) 0 0 [] []).2.2 ≠ [] := by
          intro hnil
          rw [hnil] at hOB
          simp at hOB
          omega
        have hmem := getLastD_mem _ 0 hne
        have := hB _ hmem
        rw [he1]
        exact this
    · rw [if_neg hpos] at he
      exact hE e he
  · intro b
    rfl

/-- C9 witness: the end-without-start error on the one-line document made of
a bare end marker is reported at line 1 (1-indexed), within the document. -/
theorem C9_line_numbering_amended_witness :
    1 ≤ (⟨"f.js", "protected_block", 1,
        "INTENTIONAL-END without matching INTENTIONAL-START"⟩ : SyncError).line ∧
    (⟨"f.js", "protected_block", 1,
        "INTENTIONAL-END without matching INTENTIONAL-START"⟩ : SyncError).line ≤
      (splitOnNl ">>").length :=
  C9_line_numbering_amended.1 ⟨["<<"], [">>"]⟩ "f.js" ">>" _ (by decide)

/-- C9 counterexample: a protected block spanning 0-indexed lines 1 to 3 of
the derivative is reported by the merge warning message as `lines 1-3`; the
1-indexed range `2-4` appears nowhere in the message.  So this externally
reported line number is 0-indexed, contradicting the claim. -/
theorem C9_counterexample :
    (extractProtectedBlocks "ctxline\n<<\nP\n>>\ntail" ⟨["<<"], [">>"]⟩).map Block.start = [1] ∧
    (smartMergeFile ⟨["<<"], [">>"]⟩ "totally\ndifferent\ncontent"
        "ctxline\n<<\nP\n>>\ntail").2.map MergeWarning.message =
      ["Protected block at lines 1-3 has no matching context in main-app. Main may have removed this section."] ∧
    jsIncludes
      "Protected block at lines 1-3 has no matching context in main-app. Main may have removed this section."
      "2-4" = false := by
  exact ⟨by decide, by decide, by decide⟩

/-- Well-formedness of an extracted block with respect to the document it
was extracted from: it starts at a start-marker line, ends at the first
subsequent end-marker line, and its content is the verbatim inclusive line
slice joined back together. -/
def wfBlock (sm em lines : List String) (b : Block) : Prop :=
  b.start ≤ b.stop ∧ b.stop < lines.length ∧
  containsAny (lines.getD b.start "") sm = true ∧
  containsAny (lines.getD b.stop "") em = true ∧
  (∀ k, b.start < k → k < b.stop → containsAny (lines.getD k "") em = false) ∧
  b.content = joinNl ((lines.drop b.start).take (b.stop + 1 - b.start))

/-- Loop invariant of the extraction scan over the already-processed prefix
`pre`: while in a block, the recorded start is inside the prefix, it is a
start-marker line, the accumulated current block is the prefix from that
start, and no end marker occurred strictly after the start. -/
def scanInv (sm em pre : List String) (inBlock : Bool) (cur : List String) (bs : Nat) : Prop :=
  inBlock = true → bs < pre.length ∧ containsAny (pre.getD bs "") sm = true ∧
    cur = pre.drop bs ∧ ∀ k, bs < k → k < pre.length → containsAny (pre.getD k "") em = false

lemma extractGo_wf (sm em : List String) :
    ∀ (rest pre : List String) (inBlock : Bool) (cur : List String) (bs : Nat),
      scanInv sm em pre inBlock cur bs →
      (∀ b ∈ extractGo sm em rest pre.length inBlock cur bs,
        wfBlock sm em (pre ++ rest) b ∧ cond inBlock bs pre.length ≤ b.start) ∧
      (extractGo sm em rest pre.length inBlock cur bs).Pairwise (fun a b => a.stop < b.start) := by
  intro rest
  induction rest with
  | nil =>
    intro pre inBlock cur bs _
    constructor
    · intro b hb
      simp [extractGo] at hb
    · simp [extractGo]
  | cons line rest ih =>
    intro pre inBlock cur bs hinv
    have hlenline : (pre ++ [line]).length = pre.length + 1 := by simp
    have hl2 : (pre ++ [line]) ++ rest = pre ++ line :: rest := by simp
    cases inBlock with
    | false =>
      cases hs : containsAny line sm with
      | true =>
        have hstep : extractGo sm em (line :: rest) pre.length false cur bs =
            extractGo sm em rest (pre.length + 1) true [line] pre.length := by
          simp only [extractGo, hs, Bool.not_false, Bool.true_and, if_true]
        have hinv' : scanInv sm em (pre ++ [line]) true [line] pre.length := by
          intro _
          refine ⟨by simp, ?_, ?_, ?_⟩
          · rw [List.getD_append_right pre [line] "" pre.length (le_refl _)]
            simpa using hs
          · rw [List.drop_left pre [line]]
          · intro k hk1 hk2
            rw [hlenline] at hk2
            omega
        obtain ⟨ihA, ihP⟩ := ih (pre ++ [line]) true [line] pre.length hinv'
        rw [hlenline] at ihA ihP
        rw [hl2] at ihA
        rw [hstep]
        refine ⟨?_, ihP⟩
        intro b hb
        obtain ⟨hw, hlow⟩ := ihA b hb
        exact ⟨hw, hlow⟩
      | false =>
        have hstep : extractGo sm em (line :: rest) pre.length false cur bs =
            extractGo sm em rest (pre.length + 1) false cur bs := by
          simp only [extractGo, hs, Bool.not_false, Bool.true_and, Bool.false_eq_true, if_false]
        have hinv' : scanInv sm em (pre ++ [line]) false cur bs := by
          intro h
          simp at h
        obtain ⟨ihA, ihP⟩ := ih (pre ++ [line]) false cur bs hinv'
        rw [hlenline] at ihA ihP
        rw [hl2] at ihA
        rw [hstep]
        refine ⟨?_, ihP⟩
        intro b hb
        obtain ⟨hw, hlow⟩ := ihA b hb
        refine ⟨hw, ?_⟩
        show pre.length ≤ b.start
        have : pre.length + 1 ≤ b.start := hlow
        omega
    | true =>
      obtain ⟨hbs, hsm0, hcur, hmid⟩ := hinv rfl
      cases he : containsAny line em with
      | false =>
        have hstep : extractGo sm em (line :: rest) pre.length true cur bs =
            extractGo sm em rest (pre.length + 1) true (cur ++ [line]) bs := by
          simp only [extractGo, he, Bool.not_true, Bool.false_and, Bool.false_eq_true, if_false,
            if_true]
        have hinv' : scanInv sm em (pre ++ [line]) true (cur ++ [line]) bs := by
          intro _
          refine ⟨by simp; omega, ?_, ?_, ?_⟩
          · rw [List.getD_append pre [line] "" bs hbs]
            exact hsm0
          · rw [List.drop_append_eq_append_drop, Nat.sub_eq_zero_of_le (le_of_lt hbs),
              List.drop_zero, hcur]
          · intro k hk1 hk2
            rw [hlenline] at hk2
            rcases Nat.lt_or_ge k pre.length with hk | hk
            · rw [List.getD_append pre [line] "" k hk]
              exact hmid k hk1 hk
            · have hke : k = pre.length := by omega
              rw [List.getD_append_right pre [line] "" k hk, hke]
              simpa using he
        obtain ⟨ihA, ihP⟩ := ih (pre ++ [line]) true (cur ++ [line]) bs hinv'
        rw [hlenline] at ihA ihP
        rw [hl2] at ihA
        rw [hstep]
        exact ⟨ihA, ihP⟩
      | true =>
        have hstep : extractGo sm em (line :: rest) pre.length true cur bs =
            { start := bs, stop := pre.length, content := joinNl (cur ++ [line]) } ::
              extractGo sm em rest (pre.length + 1) false [] bs := by
          simp only [extractGo, he, Bool.not_true, Bool.false_and, Bool.false_eq_true, if_false,
            if_true]
        have hinv' : scanInv sm em (pre ++ [line]) false [] bs := by
          intro h
          simp at h
        obtain ⟨ihA, ihP⟩ := ih (pre ++ [line]) false [] bs hinv'
        rw [hlenline] at ihA ihP
        rw [hl2] at ihA
        rw [hstep]
        have hb0 : wfBlock sm em (pre ++ line :: rest)
            { start := bs, stop := pre.length, content := joinNl (cur ++ [line]) } := by
          unfold wfBlock
          refine ⟨?_, ?_, ?_, ?_, ?_, ?_⟩
          · show bs ≤ pre.length
            omega
          · show pre.length < (pre ++ line :: rest).length
            simp
          · show containsAny ((pre ++ line :: rest).getD bs "") sm = true
            rw [List.getD_append pre (line :: rest) "" bs hbs]
            exact hsm0
          · show containsAny ((pre ++ line :: rest).getD pre.length "") em = true
            rw [List.getD_append_right pre (line :: rest) "" pre.length (le_refl _)]
            simpa using he
          · show ∀ k, bs < k → k < pre.length →
              containsAny ((pre ++ line :: rest).getD k "") em = false
            intro k hk1 hk2
            rw [List.getD_append pre (line :: rest) "" k hk2]
            exact hmid k hk1 hk2
          · show joinNl (cur ++ [line]) =
              joinNl (((pre ++ line :: rest).drop bs).take (pre.length + 1 - bs))
            have hdrop : (pre ++ line :: rest).drop bs = pre.drop bs ++ line :: rest := by
              rw [List.drop_append_eq_append_drop, Nat.sub_eq_zero_of_le (le_of_lt hbs),
                List.drop_zero]
            have htake : (pre.drop bs ++ line :: rest).take (pre.length + 1 - bs) =
                pre.drop bs ++ [line] := by
              rw [List.take_append_eq_append_take, List.length_drop,
                List.take_of_length_le (by rw [List.length_drop]; omega)]
              have h1 : pre.length + 1 - bs - (pre.length - bs) = 1 := by omega
              rw [h1]
              rfl
            rw [hdrop, htake, hcur]
        constructor
        · intro b hb
          rcases List.mem_cons.mp hb with rfl | hb
          · exact ⟨hb0, le_refl _⟩
          · obtain ⟨hw, hlow⟩ := ihA b hb
            refine ⟨hw, ?_⟩
            show bs ≤ b.start
            have : pre.length + 1 ≤ b.start := hlow
            omega
        · rw [List.pairwise_cons]
          constructor
          · intro b hb
            have : pre.length + 1 ≤ b.start := (ihA b hb).2
            show pre.length < b.start
            omega
          · exact ihP

/-- C7: every block the extractor emits is well-formed — its first line
contains a start marker, its last line is the first subsequent line
containing an end marker, its content is the verbatim inclusive slice
(so inner start markers are absorbed as plain content), blocks are pairwise
disjoint and in document order, and a trailing unterminated block is never
emitted (every emitted block ends at an end-marker line inside the
document). -/
theorem C7_extractor_wf (m : Markers) (content : String) :
    (∀ b ∈ extractProtectedBlocks content m,
      wfBlock m.startMarkers m.endMarkers (splitOnNl content) b) ∧
    (extractProtectedBlocks content m).Pairwise (fun a b => a.stop < b.start) := by
  unfold extractProtectedBlocks
  obtain ⟨hA, hP⟩ := extractGo_wf m.startMarkers m.endMarkers (splitOnNl content) [] false [] 0
    (by intro h; simp at h)
  constructor
  · intro b hb
    have := hA b (by simpa using hb)
    rw [List.nil_append] at this
    exact this.1
  · simpa using hP

/-- C7 witness: the single block of a small document is well-formed. -/
theorem C7_extractor_wf_witness :
    wfBlock ["<<"] [">>"] (splitOnNl "a\n<<\nP\n>>\nb")
      { start := 1, stop := 3, content := "<<\nP\n>>" } :=
  (C7_extractor_wf ⟨["<<"], [">>"]⟩ "a\n<<\nP\n>>\nb").1
    { start := 1, stop := 3, content := "<<\nP\n>>" } (by decide)

end SyncMerge
